import Mathlib

/-!
# Verification of the Leveler redistribution model (`redistribution.go`)

Shallow embedding of the Go source in Lean 4. Machine floats (`float64`)
are embedded as exact rationals `ℚ`; `math.Floor` becomes `Int.floor`
cast back to `ℚ`. Populations are lists of wealths (and, for the Poisson
family, lists of rates), indexed as the Go slices are.
-/

namespace Leveler

/-- The `ActivationOrder` enumeration of the source
(`uniform | random | poisson | inversePoisson | naturalPoisson`). -/
inductive ActivationOrder where
  | uniform
  | random
  | poisson
  | inversePoisson
  | naturalPoisson
deriving DecidableEq

open ActivationOrder

/-- `Proc` conducts a pairwise reset of wealth: both agents receive
`math.Floor((a.wealth + b.wealth) / 2)`.  Returns the new pair of wealths.
(`Rat.floor` is the floor function on `ℚ`; see `Proc_def_floor` below.) -/
def Proc (a b : ℚ) : ℚ × ℚ :=
  let averg : ℚ := (((a + b) / 2).floor : ℤ)
  (averg, averg)

/-- `Populate` initializes the agent population: agent `i` (0-based)
gets wealth `i + 1`. -/
def Populate (n : ℕ) : List ℚ :=
  (List.range n).map (fun i => ((i + 1 : ℕ) : ℚ))

/-- One leveling pass: apply `Proc` to a list of index pairs, in order,
mutating the population in place.  `Proc(&Pop[a], &Pop[b])` reads both
wealths, then writes the common average to both slots (so an aliased
pair `a = b` receives the single value once). -/
def applyPairs (pairs : List (ℕ × ℕ)) (pop : List ℚ) : List ℚ :=
  pairs.foldl
    (fun acc p =>
      let averg := (Proc (acc.getD p.1 0) (acc.getD p.2 0)).1
      (acc.set p.1 averg).set p.2 averg)
    pop

/-- A rational that is the cast of a natural number: the shape of every
wealth value reachable in the program. -/
def IsNatValued (q : ℚ) : Prop := 0 ≤ q ∧ q.den = 1

instance (q : ℚ) : Decidable (IsNatValued q) := by
  unfold IsNatValued; infer_instance

/-- Consecutive pairing: pair up a list two at a time from the front,
dropping a trailing odd element.  This is both the consumption of the
`turnList` queue in `Unifact` (`Get(2)` repeated `len/2` times) and of
the `arr0` deque in `Poisact` (`Shift` twice, `half` times). -/
def pairUp {α : Type} : List α → List (α × α)
  | a :: b :: rest => (a, b) :: pairUp rest
  | _ => []

/-- The agent indices used by a pair list, in order. -/
def flatPairs {α : Type} (l : List (α × α)) : List α :=
  l.flatMap (fun p => [p.1, p.2])

end Leveler

namespace Leveler

/- ## Pairwise leveling (`Proc`): claims C5, C6, C7 -/

lemma Proc_def_floor (a b : ℚ) :
    Proc a b = (((⌊(a + b) / 2⌋ : ℤ) : ℚ), ((⌊(a + b) / 2⌋ : ℤ) : ℚ)) := by
  show (((((a + b) / 2).floor : ℤ) : ℚ), ((((a + b) / 2).floor : ℤ) : ℚ)) = _
  rw [Rat.floor_def', ← Rat.floor_def]

lemma Proc_natCast (a b : ℕ) :
    Proc (a : ℚ) (b : ℚ) = ((((a + b) / 2 : ℕ) : ℚ), (((a + b) / 2 : ℕ) : ℚ)) := by
  rw [Proc_def_floor]
  have h0 : (0 : ℚ) ≤ ((a : ℚ) + b) / 2 := by positivity
  have h1 : ((a : ℚ) + b) / 2 = (((a + b : ℕ) : ℚ)) / ((2 : ℕ) : ℚ) := by push_cast; ring
  have h2 : ⌊((a : ℚ) + b) / 2⌋ = (((a + b) / 2 : ℕ) : ℤ) := by
    rw [← Int.natCast_floor_eq_floor h0, h1, Nat.floor_div_eq_div]
  rw [h2]
  push_cast
  rfl

/-- C5 (counterexample): for merely non-negative (non-integral) wealths, one
`Proc` call can lose more than 1 unit of total wealth: at `a = 1.9`, `b = 2`
the new total is `2`, below `a + b - 1 = 2.9`. -/
theorem Proc_sum_loss_cex :
    ¬ ((19/10 : ℚ) + 2 - 1 ≤ (Proc (19/10) 2).1 + (Proc (19/10) 2).2) := by
  with_unfolding_all decide

/-- C5 (amended): for integer-valued non-negative wealths — the only wealths
reachable in the program — `Proc` changes the total wealth by at most 1 unit:
the new total never exceeds the old, and is at least the old total minus 1. -/
theorem Proc_sum_within_one (a b : ℕ) :
    (Proc (a : ℚ) (b : ℚ)).1 + (Proc (a : ℚ) (b : ℚ)).2 ≤ (a : ℚ) + b ∧
    (a : ℚ) + b - 1 ≤ (Proc (a : ℚ) (b : ℚ)).1 + (Proc (a : ℚ) (b : ℚ)).2 := by
  rw [Proc_natCast]
  dsimp only
  constructor
  · have h : (a + b) / 2 + (a + b) / 2 ≤ a + b := by omega
    calc ((((a + b) / 2 : ℕ)) : ℚ) + (((a + b) / 2 : ℕ) : ℚ)
        = (((a + b) / 2 + (a + b) / 2 : ℕ) : ℚ) := by push_cast; ring
      _ ≤ ((a + b : ℕ) : ℚ) := by exact_mod_cast h
      _ = (a : ℚ) + b := by push_cast; ring
  · rw [sub_le_iff_le_add]
    have h : a + b ≤ (a + b) / 2 + (a + b) / 2 + 1 := by omega
    calc (a : ℚ) + b = ((a + b : ℕ) : ℚ) := by push_cast; ring
      _ ≤ (((a + b) / 2 + (a + b) / 2 + 1 : ℕ) : ℚ) := by exact_mod_cast h
      _ = (((a + b) / 2 : ℕ) : ℚ) + (((a + b) / 2 : ℕ) : ℚ) + 1 := by push_cast; ring

/-- C6: `Proc` is idempotent — a second call on the two wealths produced by a
first call changes nothing, because both equal the integral value
`w = floor((a+b)/2)` and `floor((w+w)/2) = w`.  Holds for arbitrary rational
inputs. -/
theorem Proc_idempotent (a b : ℚ) :
    Proc (Proc a b).1 (Proc a b).2 = Proc a b := by
  simp only [Proc_def_floor]
  have h : (((⌊(a + b) / 2⌋ : ℤ) : ℚ) + ((⌊(a + b) / 2⌋ : ℤ) : ℚ)) / 2
      = ((⌊(a + b) / 2⌋ : ℤ) : ℚ) := by ring
  simp only [h, Int.floor_intCast]

/-- C7 (counterexample): a self-pairing `Proc(a, a)` is not a no-op for
non-integral wealth: at wealth `1.5` the agent's wealth becomes
`floor(1.5) = 1`. -/
theorem Proc_self_cex : (Proc (3/2) (3/2)).1 ≠ (3/2 : ℚ) := by
  with_unfolding_all decide

/-- C7 (amended): for integer-valued wealth — the only wealths reachable in
the program — a degenerate self-pairing `Proc(a, a)` leaves the wealth
unchanged: `floor((w+w)/2) = w`.  (No NaN can arise: the computation is a
finite floor of a finite average.) -/
theorem Proc_self_noop (n : ℤ) : Proc (n : ℚ) (n : ℚ) = ((n : ℚ), (n : ℚ)) := by
  rw [Proc_def_floor]
  have h : ((n : ℚ) + (n : ℚ)) / 2 = ((n : ℤ) : ℚ) := by ring
  rw [h, Int.floor_intCast]

/- ## Wealth integrality invariant: claim C9 -/

lemma isNatValued_getD (pop : List ℚ) (i : ℕ) (h : ∀ w ∈ pop, IsNatValued w) :
    IsNatValued (pop.getD i 0) := by
  rcases Nat.lt_or_ge i pop.length with hi | hi
  · rw [List.getD_eq_getElem _ _ hi]
    exact h _ (List.getElem_mem hi)
  · rw [List.getD_eq_default _ _ hi]
    exact ⟨le_refl 0, rfl⟩

lemma isNatValued_Proc (a b : ℚ) (ha : IsNatValued a) (hb : IsNatValued b) :
    IsNatValued (Proc a b).1 := by
  rw [Proc_def_floor]
  dsimp only
  unfold IsNatValued
  refine ⟨?_, Rat.den_intCast _⟩
  have h : (0 : ℚ) ≤ (a + b) / 2 := by
    have := ha.1; have := hb.1; positivity
  exact_mod_cast Int.floor_nonneg.2 h

lemma applyPairs_natValued (pairs : List (ℕ × ℕ)) (pop : List ℚ)
    (h : ∀ w ∈ pop, IsNatValued w) :
    ∀ w ∈ applyPairs pairs pop, IsNatValued w := by
  induction pairs generalizing pop with
  | nil => exact h
  | cons p ps ih =>
    refine ih _ ?_
    intro w hw
    have hv : IsNatValued (Proc (pop.getD p.1 0) (pop.getD p.2 0)).1 :=
      isNatValued_Proc _ _ (isNatValued_getD _ _ h) (isNatValued_getD _ _ h)
    rcases List.mem_or_eq_of_mem_set hw with hw' | hw'
    · rcases List.mem_or_eq_of_mem_set hw' with hw'' | hw''
      · exact h _ hw''
      · exact hw'' ▸ hv
    · exact hw' ▸ hv

/-- C9: every reachable wealth is a non-negative integer-valued number —
`Populate` assigns agent `i` the wealth `i + 1`, and one leveling pass over
any list of index pairs (which is what every policy's turn amounts to)
preserves non-negative integrality, since `Proc` writes the floor of an
average of non-negative values. -/
theorem wealth_invariant (pairs : List (ℕ × ℕ)) (pop : List ℚ)
    (h : ∀ w ∈ pop, IsNatValued w) :
    (∀ n : ℕ, ∀ w ∈ Populate n, IsNatValued w) ∧
    (∀ w ∈ applyPairs pairs pop, IsNatValued w) := by
  constructor
  · intro n w hw
    rcases List.mem_map.1 hw with ⟨i, _, rfl⟩
    exact ⟨by positivity, Rat.den_natCast _⟩
  · exact applyPairs_natValued pairs pop h

/-- C9 (witness): the invariant at the concrete population `[1, 2, 3]` with
the single pair `(0, 1)`. -/
theorem wealth_invariant_witness :
    (∀ w ∈ ([1, 2, 3] : List ℚ), IsNatValued w) ∧
    (∀ w ∈ applyPairs [(0, 1)] ([1, 2, 3] : List ℚ), IsNatValued w) :=
  ⟨by with_unfolding_all decide,
    (wealth_invariant [(0, 1)] [1, 2, 3] (by with_unfolding_all decide)).2⟩

end Leveler

namespace Leveler

/- ## Uniform-policy pairing (`Unifact`): claim C1 -/

/-- `Unifact` pushes a random permutation of the agent indices into a FIFO
queue and consumes it `Get(2)` at a time, `len/2` times: the turn's pairs
are the consecutive pairs of the permutation, a trailing odd index (if any)
staying in the queue unused.  The permutation itself is the embedding's
input. -/
def Unifact (perm : List ℕ) : List (ℕ × ℕ) := pairUp perm

lemma pairUp_nil {α : Type} : pairUp ([] : List α) = [] := by
  simp [pairUp]

lemma pairUp_single {α : Type} (a : α) : pairUp [a] = [] := by
  simp [pairUp]

lemma pairUp_cons₂ {α : Type} (a b : α) (t : List α) :
    pairUp (a :: b :: t) = (a, b) :: pairUp t := by
  simp [pairUp]

lemma flatPairs_nil {α : Type} : flatPairs ([] : List (α × α)) = [] := rfl

lemma flatPairs_cons {α : Type} (p : α × α) (l : List (α × α)) :
    flatPairs (p :: l) = p.1 :: p.2 :: flatPairs l := rfl

lemma pairUp_length {α : Type} : ∀ (l : List α), (pairUp l).length = l.length / 2
  | [] => by simp [pairUp_nil]
  | [_] => by simp [pairUp_single]
  | a :: b :: t => by
    rw [pairUp_cons₂, List.length_cons, List.length_cons, List.length_cons,
      pairUp_length t]
    omega

lemma pairUp_flat {α : Type} :
    ∀ (l : List α), flatPairs (pairUp l) = l.take (2 * (l.length / 2))
  | [] => by simp [pairUp_nil, flatPairs_nil]
  | [_] => by simp [pairUp_single, flatPairs_nil]
  | a :: b :: t => by
    rw [pairUp_cons₂, flatPairs_cons, pairUp_flat t, List.length_cons, List.length_cons]
    have h : 2 * ((t.length + 1 + 1) / 2) = 2 * (t.length / 2) + 2 := by omega
    rw [h]
    rfl

/-- C1: one Uniform-policy turn over a population of size `N` pairs the
consecutive entries of a random permutation of the indices `0..N-1`,
producing exactly `⌊N/2⌋` pairs; the used indices are pairwise distinct (so
the pairs are disjoint and every index appears in at most one pair), and for
odd `N` the trailing index of the permutation is in no pair. -/
theorem Unifact_pairing (N : ℕ) (perm : List ℕ) (h : perm.Perm (List.range N)) :
    (Unifact perm).length = N / 2 ∧
    (flatPairs (Unifact perm)).Nodup ∧
    (N % 2 = 1 → ∀ x, perm.getLast? = some x → x ∉ flatPairs (Unifact perm)) := by
  have hlen : perm.length = N := by rw [h.length_eq, List.length_range]
  have hnd : perm.Nodup := h.nodup_iff.2 (List.nodup_range N)
  unfold Unifact
  refine ⟨?_, ?_, ?_⟩
  · rw [pairUp_length, hlen]
  · rw [pairUp_flat]
    exact List.Sublist.nodup (List.take_sublist _ _) hnd
  · intro hodd x hx hmem
    rw [pairUp_flat] at hmem
    have hne : perm ≠ [] := by
      intro h0
      rw [h0] at hlen
      simp only [List.length_nil] at hlen
      omega
    have hx' : x = perm.getLast hne := by
      rw [List.getLast?_eq_getLast perm hne] at hx
      exact (Option.some_injective _ hx).symm
    have heq : perm.dropLast ++ [x] = perm := by
      rw [hx']
      exact List.dropLast_append_getLast hne
    have htake : perm.take (2 * (perm.length / 2)) = perm.dropLast := by
      have h2 : 2 * (perm.length / 2) = perm.length - 1 := by omega
      rw [h2, ← List.dropLast_eq_take]
    have hnd2 : (perm.dropLast ++ [x]).Nodup := by rw [heq]; exact hnd
    rcases List.nodup_append.1 hnd2 with ⟨-, -, hdisj⟩
    exact hdisj (htake ▸ hmem) (List.mem_singleton_self x)

/-- C1 (witness): the pairing property at the concrete permutation
`[2, 0, 1]` of `0..2` (odd population of size 3). -/
theorem Unifact_pairing_witness :
    (([2, 0, 1] : List ℕ).Perm (List.range 3)) ∧
    ((Unifact [2, 0, 1]).length = 3 / 2 ∧
     (flatPairs (Unifact [2, 0, 1])).Nodup ∧
     (3 % 2 = 1 → ∀ x, ([2, 0, 1] : List ℕ).getLast? = some x →
        x ∉ flatPairs (Unifact [2, 0, 1]))) :=
  ⟨by decide, Unifact_pairing 3 [2, 0, 1] (by decide)⟩

end Leveler

namespace Leveler

open ActivationOrder

/- ## Poisson-family rate assignment and normalization: claims C3, C4, C10 -/

/-- Mean of the population wealths (the `mnw` of `Poisact`, computed by
`Asdw` as the arithmetic mean). -/
def meanOf (ws : List ℚ) : ℚ := ws.sum / (ws.length : ℚ)

/-- `totd`: total absolute distance of all wealths from the mean. -/
def totdOf (ws : List ℚ) : ℚ := (ws.map (fun w => |w - meanOf ws|)).sum

/-- The `inversePoisson` denominator of `Poisact`: `|w - mnw|`, replaced by
`0.0001` only when it is exactly `0`. -/
def invDenom (ws : List ℚ) (w : ℚ) : ℚ :=
  if |w - meanOf ws| = 0 then 1/10000 else |w - meanOf ws|

/-- The `naturalPoisson` denominator of `Poisact`: the wealth itself,
replaced by `0.0001` only when it is exactly `0`. -/
def natDenom (w : ℚ) : ℚ := if w = 0 then 1/10000 else w

/-- The raw rate `Poisact` assigns to an agent of wealth `w` before
normalization, per activation policy. -/
def rawLam (act : ActivationOrder) (ws : List ℚ) (w : ℚ) : ℚ :=
  if act = inversePoisson then totdOf ws / invDenom ws w
  else if act = naturalPoisson then 1 / natDenom w
  else |w - meanOf ws| / totdOf ws

/-- The raw rates of the whole population (`Pop[i].lam` after the rate
loop of `Poisact`, before `Normalize`). -/
def rawRates (act : ActivationOrder) (ws : List ℚ) : List ℚ :=
  ws.map (rawLam act ws)

/-- Modelled from the spec: the spec states the Poisson-family rate
formulas with an ε-floor applied to every small denominator —
`λ_i = D / max(|w_i − m|, ε)` for `inversePoisson` and
`λ_i = 1 / max(w_i, ε)` for `naturalPoisson`, with `ε = 1e-4`. -/
def specRawLam (act : ActivationOrder) (ws : List ℚ) (w : ℚ) : ℚ :=
  if act = inversePoisson then totdOf ws / max (|w - meanOf ws|) (1/10000)
  else if act = naturalPoisson then 1 / max w (1/10000)
  else |w - meanOf ws| / totdOf ws

/-- Modelled from the spec: `specRawLam` over the whole population. -/
def specRawRates (act : ActivationOrder) (ws : List ℚ) : List ℚ :=
  ws.map (specRawLam act ws)

/-- `Normalize` rescales one turn's rates: each `λ` becomes
`λ * N * 1.1 / totlam`, and any rate that is exactly `0` afterwards is
replaced by `1/N`. -/
def Normalize (lams : List ℚ) : List ℚ :=
  let totlam := lams.sum
  let n : ℚ := (lams.length : ℚ)
  lams.map (fun l =>
    let l2 := l * n * (11/10) / totlam
    if l2 = 0 then 1 / n else l2)

/-- C4 (counterexample): the ε-floor of the code applies only to
exactly-zero denominators, not to every denominator smaller than ε: for
wealths `[0, 1e-5]` each agent is at distance `5e-6 < ε` from the mean, the
code assigns rate `D/5e-6 = 2`, while the spec's `D/max(|w−m|, ε)` formula
gives `D/ε = 0.1`. -/
theorem rawRates_eps_cex :
    rawRates ActivationOrder.inversePoisson [0, 1/100000] = [2, 2] ∧
    specRawRates ActivationOrder.inversePoisson [0, 1/100000] = [1/10, 1/10] ∧
    rawRates ActivationOrder.inversePoisson [0, 1/100000] ≠
      specRawRates ActivationOrder.inversePoisson [0, 1/100000] := by
  with_unfolding_all decide

/-- C4 (amended): the raw rates are `λ_i = D / d` with
`d = |w_i − m|` floored to `ε = 1e-4` only when exactly `0`
(`inversePoisson`), and `λ_i = 1 / d` with `d = w_i` floored only when
exactly `0` (`naturalPoisson`); this agrees with the spec's
`max(denominator, ε)` formulas whenever the denominator is `0` or at
least `ε` — i.e. everywhere except denominators strictly between `0`
and `ε`. -/
theorem rawLam_eps_floor (ws : List ℚ) (w : ℚ)
    (h1 : |w - meanOf ws| = 0 ∨ 1/10000 ≤ |w - meanOf ws|)
    (h2 : w = 0 ∨ 1/10000 ≤ w) :
    rawLam inversePoisson ws w = totdOf ws / invDenom ws w ∧
    rawLam naturalPoisson ws w = 1 / natDenom w ∧
    rawLam inversePoisson ws w = specRawLam inversePoisson ws w ∧
    rawLam naturalPoisson ws w = specRawLam naturalPoisson ws w := by
  refine ⟨by simp [rawLam], by simp [rawLam], ?_, ?_⟩
  · simp only [rawLam, specRawLam, invDenom, if_pos rfl, reduceIte]
    rcases h1 with h | h
    · rw [if_pos h, h, max_eq_right (by norm_num)]
    · have hne : |w - meanOf ws| ≠ 0 := by
        intro h0
        rw [h0] at h
        norm_num at h
      rw [if_neg hne, max_eq_left h]
  · have e1 : rawLam naturalPoisson ws w = 1 / natDenom w := by simp [rawLam]
    have e2 : specRawLam naturalPoisson ws w = 1 / max w (1/10000) := by
      simp [specRawLam]
    rw [e1, e2]
    unfold natDenom
    rcases h2 with h | h
    · rw [if_pos h, h, max_eq_right (by norm_num)]
    · have hne : w ≠ 0 := by
        intro h0
        rw [h0] at h
        norm_num at h
      rw [if_neg hne, max_eq_left h]

/-- C4 (witness): the amended formulas at wealths `[1, 2]`, agent of
wealth `1` (distance `1/2 ≥ ε` from the mean). -/
theorem rawLam_eps_floor_witness :
    ((|1 - meanOf [1, 2]| = 0 ∨ (1:ℚ)/10000 ≤ |1 - meanOf [1, 2]|) ∧
     ((1:ℚ) = 0 ∨ (1:ℚ)/10000 ≤ 1)) ∧
    (rawLam inversePoisson [1, 2] 1 = totdOf [1, 2] / invDenom [1, 2] 1 ∧
     rawLam naturalPoisson [1, 2] 1 = 1 / natDenom 1 ∧
     rawLam inversePoisson [1, 2] 1 = specRawLam inversePoisson [1, 2] 1 ∧
     rawLam naturalPoisson [1, 2] 1 = specRawLam naturalPoisson [1, 2] 1) :=
  ⟨⟨by with_unfolding_all decide, by with_unfolding_all decide⟩,
    rawLam_eps_floor [1, 2] 1 (by with_unfolding_all decide)
      (by with_unfolding_all decide)⟩

end Leveler

namespace Leveler

open ActivationOrder

/-- C3 (counterexample): when some pre-normalization rate is exactly `0`
(reachable, e.g. under the `poisson` policy for an agent at the mean), the
`1/N` floor raises the post-`Normalize` sum strictly above `1.1 × N`: for
rates `[0, 1]`, `Normalize` yields `[1/2, 11/5]`, whose sum `2.7` differs
from `1.1 × 2 = 2.2` by `0.5` — far beyond floating-point tolerance. -/
theorem Normalize_sum_cex :
    Normalize [0, 1] = [1/2, 11/5] ∧ (Normalize [0, 1]).sum ≠ 11/10 * 2 := by
  with_unfolding_all decide

/-- C3 (amended): if every rate is strictly positive before normalization,
then after `Normalize` the rates sum to exactly `1.1 × N` (in exact
arithmetic) and every rate is strictly positive — in particular none is
exactly `0`.  A zero input rate is instead floored to `1/N`, which adds to
the sum. -/
theorem Normalize_sum (lams : List ℚ) (hne : lams ≠ []) (hpos : ∀ l ∈ lams, 0 < l) :
    (Normalize lams).sum = 11/10 * (lams.length : ℚ) ∧
    ∀ l ∈ Normalize lams, 0 < l := by
  have htot : 0 < lams.sum := List.sum_pos lams hpos hne
  have hn : 0 < (lams.length : ℚ) := by
    have h0 : 0 < lams.length := List.length_pos.2 hne
    exact_mod_cast h0
  have hmap : Normalize lams
      = lams.map (fun l => l * ((lams.length : ℚ) * (11/10) / lams.sum)) := by
    simp only [Normalize]
    refine List.map_congr_left ?_
    intro l hl
    have hl0 := hpos l hl
    have hpos2 : 0 < l * (lams.length : ℚ) * (11/10) / lams.sum :=
      div_pos (mul_pos (mul_pos hl0 hn) (by norm_num)) htot
    rw [if_neg (ne_of_gt hpos2)]
    ring
  constructor
  · rw [hmap, List.sum_map_mul_right]
    have hid : (lams.map (fun l => l)) = lams := List.map_id' lams
    rw [hid]
    have hs : lams.sum ≠ 0 := htot.ne'
    field_simp
    ring
  · rw [hmap]
    intro l hl
    rcases List.mem_map.1 hl with ⟨x, hx, rfl⟩
    exact mul_pos (hpos x hx) (div_pos (mul_pos hn (by norm_num)) htot)

/-- C3 (witness): the amended statement at the all-positive rate list
`[1, 2]`. -/
theorem Normalize_sum_witness :
    (([1, 2] : List ℚ) ≠ [] ∧ ∀ l ∈ ([1, 2] : List ℚ), 0 < l) ∧
    ((Normalize [1, 2]).sum = 11/10 * (([1, 2] : List ℚ).length : ℚ) ∧
     ∀ l ∈ Normalize [1, 2], 0 < l) :=
  ⟨⟨by with_unfolding_all decide, by with_unfolding_all decide⟩,
    Normalize_sum [1, 2] (by with_unfolding_all decide) (by with_unfolding_all decide)⟩

/-- C10: under the `poisson` policy the rate divisor is the raw total
deviation `totd` with no ε-floor — and `totd = 0` is reachable: pairing the
two agents of `Populate 2` once yields the all-equal population `[1, 1]`,
whose total deviation is `0`, so the division in the `poisson` branch there
is a division by zero.  By contrast the `inversePoisson` and
`naturalPoisson` per-agent denominators are never `0` (they are floored at
exactly-zero). -/
theorem poisson_divisor_gap :
    applyPairs [(0, 1)] (Populate 2) = [1, 1] ∧
    totdOf [1, 1] = 0 ∧
    rawLam poisson [1, 1] 1 = |1 - meanOf [1, 1]| / totdOf [1, 1] ∧
    (∀ ws w, invDenom ws w ≠ 0) ∧
    (∀ w : ℚ, natDenom w ≠ 0) := by
  refine ⟨by with_unfolding_all decide, by with_unfolding_all decide,
    by simp [rawLam], ?_, ?_⟩
  · intro ws w
    unfold invDenom
    by_cases h : |w - meanOf ws| = 0
    · rw [if_pos h]; norm_num
    · rw [if_neg h]; exact h
  · intro w
    unfold natDenom
    by_cases h : w = 0
    · rw [if_pos h]; norm_num
    · rw [if_neg h]; exact h

end Leveler

namespace Leveler

/- ## Poisson-family event reduction (`Poisact`): claim C2 -/

/-- An activation event: a time in the unit turn interval and the index of
the agent it activates (the Go `event` struct holds an agent pointer; the
index plays that role and records insertion order for tie scrutiny). -/
structure PEvent where
  time : ℚ
  agent : ℕ
deriving DecidableEq, Inhabited

/-- `timeLe e1 e2` iff `e1` is at or before `e2`: the non-strict version of
the `Less` method of the `events` sort interface (`e[i].time < e[j].time`). -/
def timeLe (e1 e2 : PEvent) : Prop := e1.time ≤ e2.time

instance (e1 e2 : PEvent) : Decidable (timeLe e1 e2) := by
  unfold timeLe; infer_instance

/-- The `Swap` of the `events` sort interface: exchange slots `i` and `j`. -/
def swapIdx (l : List PEvent) (i j : ℕ) : List PEvent :=
  (l.set i (l.getD j default)).set j (l.getD i default)

/-- First half of `sort.Sort`'s base case (Go ≤ 1.18, slices shorter
than 13 never reach `doPivot`): the gap-6 exchange pass
`for i := a+6; i < b; i++ { if Less(i, i-6) { Swap(i, i-6) } }`. -/
def shellPass (l : List PEvent) : List PEvent :=
  (List.range l.length).foldl
    (fun acc i =>
      if 6 ≤ i ∧ (acc.getD i default).time < (acc.getD (i - 6) default).time
      then swapIdx acc i (i - 6) else acc)
    l

/-- Inner loop of the insertion sort:
`for j := i; j > a && Less(j, j-1); j-- { Swap(j, j-1) }`. -/
def insertAt : List PEvent → ℕ → List PEvent
  | l, 0 => l
  | l, j + 1 =>
    if (l.getD (j + 1) default).time < (l.getD j default).time
    then insertAt (swapIdx l (j + 1) j) j
    else l

/-- Second half of `sort.Sort`'s base case: insertion sort over the whole
slice. -/
def insertionSortGo (l : List PEvent) : List PEvent :=
  (List.range l.length).foldl insertAt l

/-- `sort.Sort` on an `events` slice of length < 13 as Go ≤ 1.18 executes
it: the gap-6 exchange pass followed by insertion sort.  (`sort.Sort`
documents that it is *not* guaranteed to be stable.) -/
def goSortSmall (l : List PEvent) : List PEvent := insertionSortGo (shellPass l)

/-- `if len(aTimes)%2 > 0 { aTimes = aTimes[:len(aTimes)-1] }`. -/
def dropIfOdd {α : Type} (l : List α) : List α :=
  if 0 < l.length % 2 then l.dropLast else l

/-- `if len(aTimes) > len(Pop) { aTimes = aTimes[:len(Pop)] }`. -/
def truncPop {α : Type} (n : ℕ) (l : List α) : List α :=
  if n < l.length then l.take n else l

/-- The post-sort event reduction of `Poisact`: drop the last event if the
count is odd, then truncate to the population size `n`. -/
def poisactProcess (n : ℕ) (s : List PEvent) : List PEvent :=
  truncPop n (dropIfOdd s)

/-- The pairs `Poisact` levels in one turn: the processed event sequence is
fed through a deque and consumed two `Shift`s at a time, `half` times. -/
def poisactPairs (n : ℕ) (s : List PEvent) : List (PEvent × PEvent) :=
  pairUp (poisactProcess n s)

/-- C2 (counterexample): the sort `Poisact` performs is *not* stable — on
seven events whose last has the earliest time and the first six are tied,
Go's `sort.Sort` (gap-6 pass, then insertion sort) moves the first event
behind all its time-ties, so the tied events do not keep their insertion
order; the stably sorted sequence differs. -/
theorem Poisact_sort_unstable_cex :
    goSortSmall
        [⟨1/2, 0⟩, ⟨1/2, 1⟩, ⟨1/2, 2⟩, ⟨1/2, 3⟩, ⟨1/2, 4⟩, ⟨1/2, 5⟩, ⟨1/4, 6⟩]
      = [⟨1/4, 6⟩, ⟨1/2, 1⟩, ⟨1/2, 2⟩, ⟨1/2, 3⟩, ⟨1/2, 4⟩, ⟨1/2, 5⟩, ⟨1/2, 0⟩] ∧
    goSortSmall
        [⟨1/2, 0⟩, ⟨1/2, 1⟩, ⟨1/2, 2⟩, ⟨1/2, 3⟩, ⟨1/2, 4⟩, ⟨1/2, 5⟩, ⟨1/4, 6⟩]
      ≠ [⟨1/4, 6⟩, ⟨1/2, 0⟩, ⟨1/2, 1⟩, ⟨1/2, 2⟩, ⟨1/2, 3⟩, ⟨1/2, 4⟩, ⟨1/2, 5⟩] := by
  with_unfolding_all decide

lemma pairUp_getD {α : Type} [Inhabited α] :
    ∀ (l : List α) (k : ℕ), k < (pairUp l).length →
      (pairUp l).getD k default = (l.getD (2 * k) default, l.getD (2 * k + 1) default)
  | [], k, h => by
    rw [pairUp_nil] at h
    simp at h
  | [a], k, h => by
    rw [pairUp_single] at h
    simp at h
  | a :: b :: t, 0, h => by
    rw [pairUp_cons₂]
    rfl
  | a :: b :: t, k + 1, h => by
    have h2 : k < (pairUp t).length := by
      rw [pairUp_cons₂] at h
      simpa using h
    have ih := pairUp_getD t k h2
    have e1 : 2 * (k + 1) = 2 * k + 1 + 1 := by ring
    rw [pairUp_cons₂, e1]
    simp only [List.getD_cons_succ]
    exact ih

lemma poisactProcess_pref (n : ℕ) (s : List PEvent) :
    poisactProcess n s <+: s := by
  unfold poisactProcess truncPop dropIfOdd
  by_cases h1 : 0 < s.length % 2
  · rw [if_pos h1]
    by_cases h2 : n < s.dropLast.length
    · rw [if_pos h2]
      exact (List.take_prefix n s.dropLast).trans (List.dropLast_prefix s)
    · rw [if_neg h2]
      exact List.dropLast_prefix s
  · rw [if_neg h1]
    by_cases h2 : n < s.length
    · rw [if_pos h2]
      exact List.take_prefix n s
    · rw [if_neg h2]

/-- C2 (amended): `Poisact` sorts the emitted events by time ascending with
`sort.Sort`, which gives *no* stability guarantee for ties; then, if the
event count is odd, the last event is dropped; then, if the count exceeds
the population size `n`, the list is truncated to `n`; the resulting
sequence — still time-sorted, a prefix of the sorted sequence, and at most
`n` long — is consumed front-to-back two at a time, pairing event `2k` with
event `2k+1`. -/
theorem Poisact_reduction (n : ℕ) (s : List PEvent)
    (hs : List.Pairwise timeLe s) :
    List.Pairwise timeLe (poisactProcess n s) ∧
    poisactProcess n s <+: s ∧
    (poisactProcess n s).length ≤ n ∧
    (poisactPairs n s).length = (poisactProcess n s).length / 2 ∧
    (∀ k, k < (poisactPairs n s).length →
      (poisactPairs n s).getD k default =
        ((poisactProcess n s).getD (2 * k) default,
         (poisactProcess n s).getD (2 * k + 1) default)) := by
  refine ⟨hs.sublist (poisactProcess_pref n s).sublist, poisactProcess_pref n s,
    ?_, pairUp_length _, fun k hk => pairUp_getD _ k hk⟩
  unfold poisactProcess truncPop
  by_cases h2 : n < (dropIfOdd s).length
  · rw [if_pos h2]
    simp [List.length_take]
  · rw [if_neg h2]
    omega

/-- C2 (witness): the amended statement at population size 3 and the four
sorted events with times `1/4 < 2/5 < 3/4 < 4/5`. -/
theorem Poisact_reduction_witness :
    List.Pairwise timeLe [⟨1/4, 0⟩, ⟨2/5, 1⟩, ⟨3/4, 2⟩, ⟨4/5, 3⟩] ∧
    (List.Pairwise timeLe (poisactProcess 3 [⟨1/4, 0⟩, ⟨2/5, 1⟩, ⟨3/4, 2⟩, ⟨4/5, 3⟩]) ∧
     poisactProcess 3 [⟨1/4, 0⟩, ⟨2/5, 1⟩, ⟨3/4, 2⟩, ⟨4/5, 3⟩] <+:
       [⟨1/4, 0⟩, ⟨2/5, 1⟩, ⟨3/4, 2⟩, ⟨4/5, 3⟩] ∧
     (poisactProcess 3 [⟨1/4, 0⟩, ⟨2/5, 1⟩, ⟨3/4, 2⟩, ⟨4/5, 3⟩]).length ≤ 3 ∧
     (poisactPairs 3 [⟨1/4, 0⟩, ⟨2/5, 1⟩, ⟨3/4, 2⟩, ⟨4/5, 3⟩]).length =
       (poisactProcess 3 [⟨1/4, 0⟩, ⟨2/5, 1⟩, ⟨3/4, 2⟩, ⟨4/5, 3⟩]).length / 2 ∧
     (∀ k, k < (poisactPairs 3 [⟨1/4, 0⟩, ⟨2/5, 1⟩, ⟨3/4, 2⟩, ⟨4/5, 3⟩]).length →
       (poisactPairs 3 [⟨1/4, 0⟩, ⟨2/5, 1⟩, ⟨3/4, 2⟩, ⟨4/5, 3⟩]).getD k default =
         ((poisactProcess 3 [⟨1/4, 0⟩, ⟨2/5, 1⟩, ⟨3/4, 2⟩, ⟨4/5, 3⟩]).getD (2 * k) default,
          (poisactProcess 3 [⟨1/4, 0⟩, ⟨2/5, 1⟩, ⟨3/4, 2⟩, ⟨4/5, 3⟩]).getD (2 * k + 1) default))) :=
  ⟨by with_unfolding_all decide,
    Poisact_reduction 3 [⟨1/4, 0⟩, ⟨2/5, 1⟩, ⟨3/4, 2⟩, ⟨4/5, 3⟩]
      (by with_unfolding_all decide)⟩

end Leveler

namespace Leveler

/- ## Run trajectory recording (`main`): claim C8 -/

/-- The dispersion trajectory `sds` one run of `main` builds: the measure
`μ` (the sample standard deviation `Asdw` returns; kept abstract because
only the count and order of recordings matter here) of the fresh
population, then of the population after each of the `T` turns, `step`
being one scheduler-plus-leveling pass. -/
def trajectory (μ : List ℚ → ℚ) (step : List ℚ → List ℚ) : ℕ → List ℚ → List ℚ
  | 0, p => [μ p]
  | T + 1, p => μ p :: trajectory μ step T (step p)

/-- Modelled from the library contract of `mat64.Dense`: `main` allocates
`actResults := mat64.NewDense(NumRuns, NumTurns, nil)` and calls
`SetRow(ri, results)`; a row holds exactly `cols = NumTurns` values (the
era's `SetRow` copies `min(len(src), cols)` elements; later versions panic
unless the lengths match), and the gradient loop reads the row back into a
buffer of length `cols`.  So the stored row is the first `cols` entries. -/
def storedRow (cols : ℕ) (v : List ℚ) : List ℚ := v.take cols

lemma trajectory_length (μ : List ℚ → ℚ) (step : List ℚ → List ℚ) :
    ∀ (T : ℕ) (p : List ℚ), (trajectory μ step T p).length = T + 1 := by
  intro T
  induction T with
  | zero => intro p; rfl
  | succ n ih =>
    intro p
    show (trajectory μ step n (step p)).length + 1 = n + 1 + 1
    rw [ih]

/-- C8: one run of `main` does record the standard deviation once before
turn 1 and once after each of the `T` turns — the `sds` trajectory has
exactly `T + 1` entries — but it is stored into a matrix row of only `T`
columns, so the sequence the gradient regression actually consumes is the
trajectory with its final entry dropped: `T` values, not the full `T + 1`
the spec intends. -/
theorem trajectory_truncated (μ : List ℚ → ℚ) (step : List ℚ → List ℚ)
    (T : ℕ) (p0 : List ℚ) :
    (trajectory μ step T p0).length = T + 1 ∧
    storedRow T (trajectory μ step T p0) = (trajectory μ step T p0).dropLast ∧
    (storedRow T (trajectory μ step T p0)).length = T := by
  refine ⟨trajectory_length μ step T p0, ?_, ?_⟩
  · unfold storedRow
    rw [List.dropLast_eq_take, trajectory_length μ step T p0]
    simp
  · unfold storedRow
    rw [List.length_take, trajectory_length μ step T p0]
    omega

end Leveler
